import Mathlib

/-!
Verification of the SQLx agent module (`src/agents.rs`, `src/display.rs`).

The Rust code is shallowly embedded: pure functions become Lean functions,
the process-wide pool registry becomes explicit state passing, fallible
operations return `Except`.  Library calls that live outside this repository
(sqlx cell decoders, `serde_json::to_string`, `f64` formatting) are passed in
as explicit function arguments or recorded as `Option`-valued fields of the
raw-cell model, so every theorem quantifies over their possible results.

Rust `u64` / `i64` are modelled as `Nat` / `Int` with explicit `2 ^ 64` /
`2 ^ 63` bounds where overflow or truncation matters.  String payloads of
errors reproduce the source messages with the surrounding single-quote marks
elided (the quote character is immaterial to every claim).
-/

/-- The canonical value model (`AgentValue` from `modular_agent_core`),
as the spec describes it: a closed tagged union.  `Number` carries a
`Float` standing for Rust `f64`; `Message`, `Error` and `Image` payloads
are opaque to this module, so they are modelled by an uninterpreted
`String` tag. -/
inductive AgentValue where
  | unit
  | boolean (b : Bool)
  | integer (i : Int)
  | number (n : Float)
  | string (s : String)
  | array (items : List AgentValue)
  | object (entries : List (String × AgentValue))
  | tensor (t : List Float)
  | message (m : String)
  | error (e : String)
  | image (im : String)

/-- The two error kinds of `AgentError` that this module constructs. -/
inductive AgentError where
  | ioError (msg : String)
  | invalidValue (msg : String)
deriving DecidableEq

/-- `AgentValue::as_array`: `Some` exactly on the `Array` variant. -/
def asArray : AgentValue → Option (List AgentValue)
  | .array items => some items
  | _ => none

/-- `AgentValue::as_str`: `Some` exactly on the `String` variant. -/
def asStr : AgentValue → Option String
  | .string s => some s
  | _ => none

/-- `AgentValue::get_array(key)`: the value must be an `Object`, the key
present, and the entry an `Array`. -/
def getArray (v : AgentValue) (key : String) : Option (List AgentValue) :=
  match v with
  | .object entries =>
    match entries.lookup key with
    | some (.array items) => some items
    | _ => none
  | _ => none

/-- Whether `pre` is a leading prefix of `l`, by character comparison
(Rust `str::starts_with`). -/
def startsList : List Char → List Char → Bool
  | [], _ => true
  | _ :: _, [] => false
  | p :: ps, c :: cs => p = c && startsList ps cs

/-- `normalize_db_url` from `src/agents.rs`: pure normalization of a
connection specifier to an sqlx URL.  `strip_prefix` is modelled by
`List.drop` of the matched prefix length over the characters, guarded by
the `startsList` prefix test. -/
def normalize_db_url (db : String) : String :=
  if db = "" then "sqlite::memory:"
  else if startsList "mysql:".data db.data then
    let rest := db.data.drop 6
    if startsList "//".data rest then db
    else String.mk ("mysql://".data ++ rest)
  else if startsList "postgres:".data db.data
      || startsList "postgresql:".data db.data then
    let rest :=
      if startsList "postgres:".data db.data then db.data.drop 9
      else db.data.drop 11
    if startsList "//".data rest then db
    else String.mk ("postgres://".data ++ rest)
  else if startsList "sqlite:".data db.data then db
  else String.mk ("sqlite:".data ++ db.data ++ "?mode=rwc".data)

/-- The pool registry (`DB_MAP` in `src/agents.rs`), modelled as explicit
state: the `BTreeMap<String, AnyPool>` becomes an association list from the
raw key the code uses to an abstract pool identity, and `next` numbers the
pools in order of creation (each successful `AnyPool::connect` yields a
fresh pool). -/
structure Registry where
  map : List (String × Nat)
  next : Nat
deriving DecidableEq

/-- `get_pool` from `src/agents.rs`, success path, sequential semantics:
look the raw specifier `db` up in the map; on a hit return the cached pool,
otherwise connect to `normalize_db_url db` (producing the fresh pool
`st.next`) and register it under the raw specifier `db`. -/
def get_pool (db : String) (st : Registry) : Nat × Registry :=
  match st.map.lookup db with
  | some pool => (pool, st)
  | none => (st.next, ⟨(db, st.next) :: st.map, st.next + 1⟩)

/-- One positional sqlx parameter as `add_agent_value_param` produces it:
`args.add(Option::<i64>::None)` is a typed NULL, the typed adds keep their
payload, and the complex variants add JSON text. -/
inductive SqlxParam where
  | nullInt64
  | boolean (b : Bool)
  | integer (i : Int)
  | double (n : Float)
  | text (s : String)

/-- The complex variants of the value model: the ones
`add_agent_value_param` serializes to JSON text. -/
def isComplexValue : AgentValue → Bool
  | .array _ | .object _ | .tensor _ | .message _ | .error _ | .image _ => true
  | _ => false

/-- `add_agent_value_param` from `src/agents.rs`.  `jser` stands for
`serde_json::to_string(&value.to_json())` (a library call outside this
repository); the code's `.unwrap_or_default()` becomes `Option.getD ""`. -/
def add_agent_value_param (jser : AgentValue → Option String) :
    AgentValue → SqlxParam
  | .unit => .nullInt64
  | .boolean b => .boolean b
  | .integer i => .integer i
  | .number n => .double n
  | .string s => .text s
  | .array items => .text ((jser (.array items)).getD "")
  | .object entries => .text ((jser (.object entries)).getD "")
  | .tensor t => .text ((jser (.tensor t)).getD "")
  | .message m => .text ((jser (.message m)).getD "")
  | .error e => .text ((jser (.error e)).getD "")
  | .image im => .text ((jser (.image im)).getD "")

/-- `build_sqlx_params` from `src/agents.rs`: a top-level `Array` is
flattened into one parameter per element, anything else becomes a single
parameter. -/
def build_sqlx_params (jser : AgentValue → Option String)
    (value : AgentValue) : List SqlxParam :=
  match asArray value with
  | some arr => arr.map (add_agent_value_param jser)
  | none => [add_agent_value_param jser value]

/-- `rest = trimmed.split_once(nl)?.1`: the text after the first newline,
`none` when the text holds no newline. -/
def splitOnceNl : List Char → Option (List Char)
  | [] => none
  | c :: cs => if c = '\n' then some cs else splitOnceNl cs

/-- `let end = trimmed.find(star-slash)?; rest = trimmed[end + 2..]`:
the text after the first occurrence of the two-character terminator
`*` `/`, `none` when there is no occurrence. -/
def afterBlockClose : List Char → Option (List Char)
  | [] => none
  | c :: cs =>
    if c = '*' ∧ cs.head? = some '/' then some cs.tail
    else afterBlockClose cs

theorem splitOnceNl_length {l r : List Char} (h : splitOnceNl l = some r) :
    r.length < l.length := by
  induction l with
  | nil => simp [splitOnceNl] at h
  | cons c cs ih =>
    by_cases hc : c = '\n'
    · simp [splitOnceNl, hc] at h
      subst h
      simp
    · simp [splitOnceNl, hc] at h
      exact Nat.lt_trans (ih h) (by simp)

theorem afterBlockClose_length {l r : List Char} (h : afterBlockClose l = some r) :
    r.length < l.length := by
  induction l with
  | nil => simp [afterBlockClose] at h
  | cons c cs ih =>
    rw [afterBlockClose] at h
    split at h
    · cases h
      have : cs.tail.length ≤ cs.length := by
        cases cs <;> simp
      simp
      omega
    · exact Nat.lt_trans (ih h) (by simp)

theorem dropWhile_length_le (p : Char → Bool) (l : List Char) :
    (l.dropWhile p).length ≤ l.length := by
  induction l with
  | nil => simp
  | cons c cs ih =>
    by_cases hc : p c
    · rw [List.dropWhile_cons_of_pos hc]
      exact Nat.le_trans ih (by simp)
    · rw [List.dropWhile_cons_of_neg hc]

/-- `first_keyword` from `src/agents.rs`, over the script's characters:
trim leading whitespace; drop a leading line comment (`--` up to and
including the first newline, `none` when no newline follows) or a leading
block comment (up to and past the first `*` `/` terminator in the trimmed
text, `none` when unterminated) and loop; otherwise the first
whitespace-delimited word, ASCII-lowercased (`none` on empty text). -/
def first_keyword (s : List Char) : Option (List Char) :=
  let t := s.dropWhile Char.isWhitespace
  if t.take 2 = ['-', '-'] then
    match h : splitOnceNl t with
    | none => none
    | some rest => first_keyword rest
  else if t.take 2 = ['/', '*'] then
    match h : afterBlockClose t with
    | none => none
    | some rest => first_keyword rest
  else
    match t.takeWhile (fun c => !c.isWhitespace) with
    | [] => none
    | w => some (w.map Char.toLower)
termination_by s.length
decreasing_by
  · exact Nat.lt_of_lt_of_le (splitOnceNl_length h)
      (dropWhile_length_le _ _)
  · exact Nat.lt_of_lt_of_le (afterBlockClose_length h)
      (dropWhile_length_le _ _)

/-- The six row-producing keywords, as character lists. -/
def rowKeywords : List (List Char) :=
  ["select".data, "with".data, "pragma".data, "show".data,
   "describe".data, "explain".data]

/-- `script_returns_rows` from `src/agents.rs`: true exactly when the
first keyword is one of the six row-producing keywords. -/
def script_returns_rows (script : List Char) : Bool :=
  match first_keyword script with
  | some kw => rowKeywords.contains kw
  | none => false

/-- Spec-side comment-and-whitespace skipper, written from the claim's
words: repeatedly strip leading whitespace, line comments (`--` to the
next newline) and block comments, and return the remaining text, which
starts at the first token character; `none` when no token remains or a
comment is malformed.  The `overlap` flag fixes the one point the claim's
words leave open: where the search for the block terminator `*` `/`
starts.  With `overlap := false` (the claim's natural reading) it starts
after the two-character opener; with `overlap := true` (the amended
reading) it starts at the opener's own `*`, so the opener's `*` may serve
as the first character of the terminator. -/
def skipToToken (overlap : Bool) (s : List Char) : Option (List Char) :=
  match s with
  | [] => none
  | c :: cs =>
    if c.isWhitespace then skipToToken overlap cs
    else if c = '-' ∧ cs.head? = some '-' then
      match h : splitOnceNl cs.tail with
      | none => none
      | some rest => skipToToken overlap rest
    else if c = '/' ∧ cs.head? = some '*' then
      match h : afterBlockClose (if overlap then cs else cs.tail) with
      | none => none
      | some rest => skipToToken overlap rest
    else some (c :: cs)
termination_by s.length
decreasing_by
  · simp
  · have h1 := splitOnceNl_length h
    have h2 : cs.tail.length ≤ cs.length := by cases cs <;> simp
    simp
    omega
  · have h1 := afterBlockClose_length h
    have h2 : cs.tail.length ≤ cs.length := by cases cs <;> simp
    by_cases ho : overlap = true <;> simp [ho] at h1 <;> simp <;> omega

/-- Spec-side classifier, written from the claim's words: after skipping
comments and whitespace, the first whitespace-delimited token lowercased
must be one of the six keywords; no token or a malformed comment gives
`false`. -/
def claimIsRowProducing (overlap : Bool) (s : List Char) : Bool :=
  match skipToToken overlap s with
  | none => false
  | some t =>
    rowKeywords.contains ((t.takeWhile (fun c => !c.isWhitespace)).map Char.toLower)

/-- A raw backend cell (`AnyValueRef`) as the decoder sees it: whether it
is SQL NULL, the backend-reported declared type name, and the results of
the five sqlx `Decode` instances the code may invoke on it (library calls
outside this repository, so each is recorded as an `Option` field: `none`
means that decode fails on this cell).  Bytes are `Nat`s below 256. -/
structure RawCell where
  isNull : Bool
  typeName : String
  decodeBool : Option Bool
  decodeInt : Option Int
  decodeFloat : Option Float
  decodeString : Option String
  decodeBytes : Option (List Nat)

/-- `str::to_uppercase` as the decoder uses it, modelled character-wise
(the enumerated type names are all ASCII, where the two agree). -/
def toUpperStr (s : String) : String :=
  String.mk (s.data.map Char.toUpper)

/-- The five decode categories of `sqlx_value_ref_to_agent_value`, plus
the fallback category for unrecognized names. -/
inductive TypeCategory where
  | boolCat | intCat | floatCat | textCat | blobCat | otherCat
deriving DecidableEq

/-- The category table of `sqlx_value_ref_to_agent_value`: membership of
the uppercased declared type name in the match arms of the source. -/
def typeCategory (u : String) : TypeCategory :=
  if u ∈ ["BOOL", "BOOLEAN"] then .boolCat
  else if u ∈ ["INTEGER", "INT", "INT4", "INT8", "BIGINT", "SMALLINT",
               "TINYINT", "MEDIUMINT"] then .intCat
  else if u ∈ ["REAL", "FLOAT", "FLOAT4", "FLOAT8", "DOUBLE",
               "DOUBLE PRECISION", "NUMERIC", "DECIMAL"] then .floatCat
  else if u ∈ ["TEXT", "VARCHAR", "CHAR", "BPCHAR", "NAME", "CITEXT",
               "LONGTEXT", "MEDIUMTEXT", "TINYTEXT"] then .textCat
  else if u ∈ ["BLOB", "BYTEA", "BINARY", "VARBINARY", "LONGBLOB",
               "MEDIUMBLOB", "TINYBLOB"] then .blobCat
  else .otherCat

/-- The typed decode attempt the selected category performs (the `Ok`
branch of each match arm), `none` when that decode fails.  The fallback
category attempts a string decode. -/
def decodeAttempt (cell : RawCell) : Option AgentValue :=
  match typeCategory (toUpperStr cell.typeName) with
  | .boolCat => cell.decodeBool.map .boolean
  | .intCat => cell.decodeInt.map .integer
  | .floatCat => cell.decodeFloat.map .number
  | .textCat => cell.decodeString.map .string
  | .blobCat => cell.decodeBytes.map
      (fun bs => .array (bs.map (fun b => .integer (b : Int))))
  | .otherCat => cell.decodeString.map .string

/-- `sqlx_value_ref_to_agent_value` from `src/agents.rs`: a null cell is
`Unit`; otherwise the uppercased type name selects a category, whose
typed decode is attempted; on failure the result is a `String` holding
the literal (original-case) type name. -/
def sqlx_value_ref_to_agent_value (cell : RawCell) : AgentValue :=
  if cell.isNull then .unit
  else
    match typeCategory (toUpperStr cell.typeName) with
    | .boolCat =>
      match cell.decodeBool with
      | some v => .boolean v
      | none => .string cell.typeName
    | .intCat =>
      match cell.decodeInt with
      | some v => .integer v
      | none => .string cell.typeName
    | .floatCat =>
      match cell.decodeFloat with
      | some v => .number v
      | none => .string cell.typeName
    | .textCat =>
      match cell.decodeString with
      | some v => .string v
      | none => .string cell.typeName
    | .blobCat =>
      match cell.decodeBytes with
      | some v => .array (v.map (fun b => .integer (b : Int)))
      | none => .string cell.typeName
    | .otherCat =>
      match cell.decodeString with
      | some v => .string v
      | none => .string cell.typeName

/-- `rows_affected_to_table` from `src/agents.rs`: `i64::try_from(n)`
succeeds exactly when the `u64` count fits below `2 ^ 63`, and
`unwrap_or(i64::MAX)` clamps to `2 ^ 63 - 1` otherwise; the result is the
pseudo-table with the single header `rows_affected` and one single-cell
row. -/
def rows_affected_to_table (rowsAffected : Nat) : AgentValue :=
  let clamped : Int := if rowsAffected < 2 ^ 63 then (rowsAffected : Int)
    else 2 ^ 63 - 1
  .object
    [("headers", .array [.string "rows_affected"]),
     ("rows", .array [.array [.integer clamped]])]

/-- `RowsAgent::process` from `src/agents.rs`, as a pure function from the
input table value to the emitted output: fetch the `rows` array (missing
`rows` is an Invalid-Value error) and emit it unchanged as an array. -/
def rowsProcess (value : AgentValue) : Except AgentError AgentValue :=
  match getArray value "rows" with
  | none => .error (.invalidValue "Missing rows field")
  | some rows => .ok (.array rows)

/-- `index as usize` on a 64-bit target: two's-complement truncation of
the configured `i64` to an unsigned machine word. -/
def asUsize (i : Int) : Nat := (i % 2 ^ 64).toNat

/-- `RowAgent::process` from `src/agents.rs`: fetch `rows` (missing is an
Invalid-Value error), index it with the truncated configured index
(`Vector::get`, so an out-of-range index is an Invalid-Value error naming
the index) and emit the row unchanged. -/
def rowProcess (index : Int) (value : AgentValue) : Except AgentError AgentValue :=
  let idx := asUsize index
  match getArray value "rows" with
  | none => .error (.invalidValue "Missing rows field")
  | some rows =>
    match rows[idx]? with
    | none => .error (.invalidValue
        ("Row index " ++ toString idx ++ " out of bounds"))
    | some row => .ok row

/-- Rust `str::split(a comma)`: the pieces between commas, empty pieces
preserved, one (possibly empty) piece when there is no comma. -/
def splitOnComma : List Char → List (List Char)
  | [] => [[]]
  | c :: cs =>
    if c = ',' then [] :: splitOnComma cs
    else
      match splitOnComma cs with
      | [] => [[c]]
      | p :: ps => (c :: p) :: ps

/-- Rust `str::trim`: strip whitespace from both ends. -/
def trimChars (l : List Char) : List Char :=
  ((l.dropWhile Char.isWhitespace).reverse.dropWhile Char.isWhitespace).reverse

/-- The requested column names of `SelectAgent::process`: the `cols`
config split on commas, each piece trimmed of surrounding whitespace. -/
def parseCols (cols : String) : List String :=
  (splitOnComma cols.data).map (fun p => String.mk (trimChars p))

/-- `headers.iter().position(...)` of `SelectAgent::process`: a header
matches a requested name when it is a `String` equal to it; the first
matching position wins. -/
def headerMatches (col : String) (h : AgentValue) : Bool :=
  match asStr h with
  | some hs => hs = col
  | none => false

/-- `Iterator::position`: the index of the first element satisfying the
predicate. -/
def positionIdx (p : AgentValue → Bool) : List AgentValue → Option Nat
  | [] => none
  | h :: hs => if p h then some 0 else (positionIdx p hs).map (· + 1)

/-- Column resolution of `SelectAgent::process`: each requested name in
order, to its first matching header position; the first unresolved name
aborts with an Invalid-Value error naming it. -/
def resolveCols (headers : List AgentValue) :
    List String → Except AgentError (List Nat)
  | [] => .ok []
  | col :: more =>
    match positionIdx (headerMatches col) headers with
    | none => .error (.invalidValue ("Column " ++ col ++ " not found"))
    | some i =>
      match resolveCols headers more with
      | .error e => .error e
      | .ok is => .ok (i :: is)

/-- The projection of one row in `SelectAgent::process`: the row must be
an array; each resolved index is read with `Vector::get`, an absent cell
degrading to `Unit` (`unwrap_or_else(AgentValue::unit)`). -/
def projectRow (colIndices : List Nat) (row : AgentValue) :
    Except AgentError AgentValue :=
  match asArray row with
  | none => .error (.invalidValue "Row is not an array")
  | some cells =>
    .ok (.array (colIndices.map (fun i => cells[i]?.getD .unit)))

/-- Row-by-row projection, propagating the first error as the source's
`collect::<Result<_, _>>` does. -/
def projectRows (colIndices : List Nat) :
    List AgentValue → Except AgentError (List AgentValue)
  | [] => .ok []
  | row :: more =>
    match projectRow colIndices row with
    | .error e => .error e
    | .ok r =>
      match projectRows colIndices more with
      | .error e => .error e
      | .ok rs => .ok (r :: rs)

/-- `SelectAgent::process` from `src/agents.rs`, as a pure function from
the `cols` config and the input table to the emitted output: parse the
requested names, fetch `headers`, resolve every name, fetch `rows`,
project every row, and emit the single row unwrapped when exactly one row
resulted, the array of rows otherwise. -/
def selectProcess (cols : String) (value : AgentValue) :
    Except AgentError AgentValue :=
  let names := parseCols cols
  match getArray value "headers" with
  | none => .error (.invalidValue "Missing headers field")
  | some headers =>
    match resolveCols headers names with
    | .error e => .error e
    | .ok colIndices =>
      match getArray value "rows" with
      | none => .error (.invalidValue "Missing rows field")
      | some rows =>
        match projectRows colIndices rows with
        | .error e => .error e
        | .ok arr =>
          match arr with
          | [r] => .ok r
          | _ => .ok (.array arr)

/-- `escape_html` from `src/display.rs`: fold over the characters,
appending the entity for each of the five special characters and the
character itself otherwise.  `Char.ofNat 39` is the apostrophe. -/
def escape_html (text : String) : String :=
  text.data.foldl
    (fun escaped ch =>
      if ch = '&' then escaped ++ "&amp;"
      else if ch = '<' then escaped ++ "&lt;"
      else if ch = '>' then escaped ++ "&gt;"
      else if ch = '"' then escaped ++ "&quot;"
      else if ch = Char.ofNat 39 then escaped ++ "&#39;"
      else escaped.push ch)
    ""

/-- Spec-side per-character entity table: what the spec says each of the
five characters becomes, every other character passing through. -/
def escChar (ch : Char) : String :=
  if ch = '&' then "&amp;"
  else if ch = '<' then "&lt;"
  else if ch = '>' then "&gt;"
  else if ch = '"' then "&quot;"
  else if ch = Char.ofNat 39 then "&#39;"
  else String.singleton ch

mutual

/-- `cozo_cell_to_text` from `src/display.rs`.  `fmt` stands for Rust's
`f64`/tensor-element `Display` and `jser` for
`serde_json::to_string(&value.to_json()).unwrap_or_default()` (library
calls outside this repository). -/
def cozo_cell_to_text (fmt : Float → String)
    (jser : AgentValue → Option String) : AgentValue → String
  | .unit => "null"
  | .boolean b => cond b "true" "false"
  | .integer i => toString i
  | .number n => fmt n
  | .string s => s
  | .array arr =>
    "[" ++ String.intercalate ", " (cozoCellsToText fmt jser arr) ++ "]"
  | .object entries => (jser (.object entries)).getD ""
  | .tensor t =>
    let size := t.length
    if size ≤ 2 * 5 then
      "[" ++ String.intercalate ", " (t.map fmt) ++ "]"
    else
      "[" ++ String.intercalate ", "
          ((t.take 5).map fmt ++ ["..."] ++ (t.drop (size - 5)).map fmt)
        ++ ", size = " ++ toString size ++ "]"
  | .message m => (jser (.message m)).getD ""
  | .error e => (jser (.error e)).getD ""
  | .image im => (jser (.image im)).getD ""

/-- The element-wise text of a list of cells (the `arr.iter().map(...)`
of the `Array` branch). -/
def cozoCellsToText (fmt : Float → String)
    (jser : AgentValue → Option String) : List AgentValue → List String
  | [] => []
  | v :: vs => cozo_cell_to_text fmt jser v :: cozoCellsToText fmt jser vs

end

/-- `generate_html_table` from `src/display.rs`: the bordered table
fragment, with a `thead` section when headers are present (each header's
string content, escaped, inside a `th`) and a `tbody` section when rows
are present (each cell's text, escaped, inside a preformatted block in a
`td`; a row that is not an array contributes no cells). -/
def generate_html_table (fmt : Float → String)
    (jser : AgentValue → Option String)
    (headers rows : Option (List AgentValue)) : String :=
  let headerPart :=
    match headers with
    | some hs =>
      "<thead>\n<tr>\n"
        ++ String.join (hs.map (fun h =>
             "<th>" ++ escape_html ((asStr h).getD "") ++ "</th>\n"))
        ++ "</tr>\n</thead>\n"
    | none => ""
  let rowPart :=
    match rows with
    | some rs =>
      "<tbody>\n"
        ++ String.join (rs.map (fun row =>
             "<tr>\n"
               ++ (match asArray row with
                   | some cells =>
                     String.join (cells.map (fun cell =>
                       "<td><pre style=\"margin:0;white-space:pre-wrap;\">"
                         ++ escape_html (cozo_cell_to_text fmt jser cell)
                         ++ "</pre></td>\n"))
                   | none => "")
               ++ "</tr>\n"))
        ++ "</tbody>\n"
    | none => ""
  "<table border=\"1\" style=\"border-collapse:collapse;\">\n"
    ++ headerPart ++ rowPart ++ "</table>\n"

/-- Whether `needle` occurs as a contiguous substring of `hay`. -/
def containsSub (needle : List Char) : List Char → Bool
  | [] => startsList needle []
  | c :: cs => startsList needle (c :: cs) || containsSub needle cs

/-- Substring occurrence over `String`s. -/
def strContains (hay needle : String) : Bool :=
  containsSub needle.data hay.data

/-- C2: the connection-specifier normalizer satisfies all five stated
equalities: the empty specifier maps to the transient in-memory URL,
`mysql:` gets `//` inserted, an already-canonical `mysql://` URL is
unchanged, `postgresql:` gets `//` inserted with the scheme normalized to
`postgres`, and a bare path becomes a `sqlite:` URL with `mode=rwc`. -/
theorem normalize_db_url_equalities :
    normalize_db_url "" = "sqlite::memory:" ∧
    normalize_db_url "mysql:host/db" = "mysql://host/db" ∧
    normalize_db_url "mysql://host/db" = "mysql://host/db" ∧
    normalize_db_url "postgresql:host/db" = "postgres://host/db" ∧
    normalize_db_url "./a.db" = "sqlite:./a.db?mode=rwc" := by
  refine ⟨?_, ?_, ?_, ?_, ?_⟩ <;> decide

/-- C1 counterexample: the registry caches pools under the RAW specifier,
not the normalized URL.  `mysql:host/db` and `mysql://host/db` normalize
to the same URL, yet sequential acquires starting from an empty registry
return two distinct pools, so "exactly one pool per distinct normalized
URL" fails as stated. -/
theorem get_pool_distinct_pools_for_equal_normalizations :
    normalize_db_url "mysql:host/db" = normalize_db_url "mysql://host/db" ∧
    (get_pool "mysql://host/db" (get_pool "mysql:host/db" ⟨[], 0⟩).2).1 ≠
      (get_pool "mysql:host/db" ⟨[], 0⟩).1 := by
  decide

/-- C1 amended: the registry keys pools by the raw specifier string.
`acquire` returns the already-registered pool for the raw specifier when
present and otherwise opens a pool for the normalized URL and registers
it under the raw key, so repeated acquires of the SAME specifier return
the same pool; two specifiers with equal normalizations but different
raw text may return distinct pools. -/
theorem get_pool_keyed_by_raw_specifier :
    ∀ (db : String) (st : Registry),
      (∀ p, st.map.lookup db = some p → get_pool db st = (p, st)) ∧
      ((get_pool db st).2.map.lookup db = some (get_pool db st).1) ∧
      (get_pool db (get_pool db st).2).1 = (get_pool db st).1 := by
  intro db st
  refine ⟨fun p hp => by simp [get_pool, hp], ?_, ?_⟩ <;>
    cases h : st.map.lookup db <;>
      simp [get_pool, h, List.lookup]

/-- Witness for `get_pool_keyed_by_raw_specifier`: a registry that
already holds pool 5 under the raw key `a` hands it back unchanged. -/
theorem get_pool_keyed_by_raw_specifier_witness :
    ([("a", 5)] : List (String × Nat)).lookup "a" = some 5 ∧
    get_pool "a" ⟨[("a", 5)], 6⟩ = (5, ⟨[("a", 5)], 6⟩) :=
  ⟨by decide, (get_pool_keyed_by_raw_specifier "a" ⟨[("a", 5)], 6⟩).1 5 (by decide)⟩

/-- C8: for every `u64` affected-row count, the mutating path builds the
pseudo-table with single header `rows_affected` and one single-Integer
row, the integer equal to the count when it fits a signed 64-bit integer
and clamped to the maximum signed 64-bit integer otherwise. -/
theorem rows_affected_to_table_clamps :
    ∀ n : Nat, n < 2 ^ 64 →
      ∃ i : Int,
        rows_affected_to_table n =
          .object [("headers", .array [.string "rows_affected"]),
                   ("rows", .array [.array [.integer i]])] ∧
        ((n < 2 ^ 63 ∧ i = n) ∨ (2 ^ 63 ≤ n ∧ i = 2 ^ 63 - 1)) := by
  intro n _
  by_cases h : n < 2 ^ 63
  · exact ⟨n, by simp only [rows_affected_to_table, if_pos h], Or.inl ⟨h, rfl⟩⟩
  · exact ⟨2 ^ 63 - 1, by simp only [rows_affected_to_table, if_neg h],
      Or.inr ⟨Nat.le_of_not_lt h, rfl⟩⟩

/-- Witness for `rows_affected_to_table_clamps` at the count 3. -/
theorem rows_affected_to_table_clamps_witness :
    (3 : Nat) < 2 ^ 64 ∧
    ∃ i : Int,
      rows_affected_to_table 3 =
        .object [("headers", .array [.string "rows_affected"]),
                 ("rows", .array [.array [.integer i]])] ∧
      ((3 < 2 ^ 63 ∧ i = 3) ∨ (2 ^ 63 ≤ 3 ∧ i = 2 ^ 63 - 1)) :=
  ⟨by norm_num, rows_affected_to_table_clamps 3 (by norm_num)⟩

/-- C5: parameter binding flattens exactly one level.  A top-level
`Array` of n elements yields its n elements' parameters in element
order; any non-`Array` value yields exactly the one parameter of the
variant mapping: `Unit` a typed NULL, `Boolean` a boolean, `Integer` a
64-bit integer, `Number` a double, `String` an owned string, the complex
variants the JSON text of the value with the empty string bound when
serialization fails. -/
theorem build_sqlx_params_flattens :
    ∀ jser : AgentValue → Option String,
      (∀ arr, build_sqlx_params jser (.array arr) =
        arr.map (add_agent_value_param jser)) ∧
      (∀ v, asArray v = none →
        build_sqlx_params jser v = [add_agent_value_param jser v]) ∧
      add_agent_value_param jser .unit = .nullInt64 ∧
      (∀ b, add_agent_value_param jser (.boolean b) = .boolean b) ∧
      (∀ i, add_agent_value_param jser (.integer i) = .integer i) ∧
      (∀ n, add_agent_value_param jser (.number n) = .double n) ∧
      (∀ s, add_agent_value_param jser (.string s) = .text s) ∧
      (∀ v, isComplexValue v = true →
        add_agent_value_param jser v = .text ((jser v).getD "")) := by
  intro jser
  refine ⟨fun arr => rfl, fun v hv => ?_, rfl, fun b => rfl, fun i => rfl,
    fun n => rfl, fun s => rfl, fun v hv => ?_⟩
  · cases v <;> simp_all [asArray, build_sqlx_params]
  · cases v <;> simp_all [isComplexValue, add_agent_value_param]

/-- Witness for `build_sqlx_params_flattens`: the spec's own examples,
binding the array holding 1, `x`, `true` yields those three parameters in
order, and binding the bare integer 7 yields one parameter. -/
theorem build_sqlx_params_flattens_witness :
    build_sqlx_params (fun _ => none)
        (.array [.integer 1, .string "x", .boolean true]) =
      [.integer 1, .text "x", .boolean true] ∧
    asArray (.integer 7) = none ∧
    build_sqlx_params (fun _ => none) (.integer 7) = [.integer 7] := by
  refine ⟨?_, rfl, ?_⟩
  · rw [(build_sqlx_params_flattens (fun _ => none)).1]
    rfl
  · exact (build_sqlx_params_flattens (fun _ => none)).2.1 _ rfl

/-- C3: the cell decoder is total — it returns a value, never an error,
for every raw cell.  A null cell decodes to `Unit` regardless of declared
type; otherwise the uppercased declared type name selects the decode
category and a failed typed decode (including an unrecognized type name
whose string decode fails, as in the second conjunct) yields a `String`
equal to the literal type name. -/
theorem cell_decoder_total_with_fallback :
    (∀ cell : RawCell,
      sqlx_value_ref_to_agent_value cell =
        if cell.isNull then .unit
        else (decodeAttempt cell).getD (.string cell.typeName)) ∧
    sqlx_value_ref_to_agent_value ⟨false, "FOOBAR", none, none, none, none, none⟩ =
      .string "FOOBAR" ∧
    sqlx_value_ref_to_agent_value ⟨true, "TEXT", none, none, none, some "x", none⟩ =
      .unit := by
  refine ⟨?_, by rfl, by rfl⟩
  rintro ⟨null, tn, db, di, df, ds, dbytes⟩
  cases null
  · simp only [sqlx_value_ref_to_agent_value, decodeAttempt, Bool.false_eq_true,
      if_false]
    cases htc : typeCategory (toUpperStr tn)
    · cases db <;> simp [htc]
    · cases di <;> simp [htc]
    · cases df <;> simp [htc]
    · cases ds <;> simp [htc]
    · cases dbytes <;> simp [htc]
    · cases ds <;> simp [htc]
  · simp [sqlx_value_ref_to_agent_value]

/-- C7 counterexample: `Rows` does NOT require the headers array.  On a
table with a `rows` array but no `headers` field it succeeds, returning
the rows, where the claim demands an Invalid-Value error; `Row` likewise
indexes successfully without headers. -/
theorem rows_accepts_missing_headers :
    rowsProcess (.object [("rows", .array [])]) = .ok (.array []) ∧
    getArray (.object [("rows", .array [])]) "headers" = none ∧
    rowProcess 0 (.object [("rows", .array [.integer 7])]) = .ok (.integer 7) :=
  ⟨rfl, rfl, rfl⟩

/-- C7 amended: `Rows` and `Row` require only the `rows` array (a missing
`rows` field is an Invalid-Value error; a missing `headers` field is
accepted), while `Select` requires `headers` (checked first) and `rows`;
`Row(index)` on a rows array of length n fails with an Invalid-Value
error identifying the truncated index whenever that index is not below n,
and returns the indexed row otherwise. -/
theorem table_algebra_field_requirements :
    (∀ v rows, getArray v "rows" = some rows → rowsProcess v = .ok (.array rows)) ∧
    (∀ v, getArray v "rows" = none →
      rowsProcess v = .error (.invalidValue "Missing rows field")) ∧
    (∀ i v, getArray v "rows" = none →
      rowProcess i v = .error (.invalidValue "Missing rows field")) ∧
    (∀ i v rows, getArray v "rows" = some rows →
      (∀ h : asUsize i < rows.length,
        rowProcess i v = .ok (rows.get ⟨asUsize i, h⟩)) ∧
      (rows.length ≤ asUsize i →
        rowProcess i v = .error (.invalidValue
          ("Row index " ++ toString (asUsize i) ++ " out of bounds")))) ∧
    (∀ cols v, getArray v "headers" = none →
      selectProcess cols v = .error (.invalidValue "Missing headers field")) ∧
    (∀ cols v headers idxs, getArray v "headers" = some headers →
      resolveCols headers (parseCols cols) = .ok idxs →
      getArray v "rows" = none →
      selectProcess cols v = .error (.invalidValue "Missing rows field")) := by
  refine ⟨?_, ?_, ?_, ?_, ?_, ?_⟩
  · intro v rows h; simp [rowsProcess, h]
  · intro v h; simp [rowsProcess, h]
  · intro i v h; simp [rowProcess, h]
  · intro i v rows h
    constructor
    · intro hlt
      simp [rowProcess, h, List.getElem?_eq_getElem hlt]
    · intro hge
      simp [rowProcess, h, List.getElem?_eq_none hge]
  · intro cols v h; simp [selectProcess, h]
  · intro cols v headers idxs hh hr hn
    simp [selectProcess, hh, hr, hn]

/-- Witness for `table_algebra_field_requirements`: on a one-row table
without headers, `Row(5)` reports index 5 out of bounds, and `Select`
demands the missing headers. -/
theorem table_algebra_field_requirements_witness :
    rowProcess 5 (.object [("rows", .array [.integer 7])]) =
      .error (.invalidValue "Row index 5 out of bounds") ∧
    selectProcess "a" (.object [("rows", .array [])]) =
      .error (.invalidValue "Missing headers field") := by
  refine ⟨?_, ?_⟩
  · exact (table_algebra_field_requirements.2.2.2.1 5
      (.object [("rows", .array [.integer 7])]) [.integer 7] rfl).2 (by decide)
  · exact table_algebra_field_requirements.2.2.2.2.1 "a"
      (.object [("rows", .array [])]) rfl

/-- First-match characterization of `positionIdx` (`Iterator::position`). -/
theorem positionIdx_spec {p : AgentValue → Bool} {l : List AgentValue} {i : Nat}
    (h : positionIdx p l = some i) :
    (∃ x, l[i]? = some x ∧ p x = true) ∧
    (∀ k, k < i → ∀ x, l[k]? = some x → p x = false) := by
  induction l generalizing i with
  | nil => simp [positionIdx] at h
  | cons hd tl ih =>
    by_cases hp : p hd
    · simp [positionIdx, hp] at h
      subst h
      exact ⟨⟨hd, by simp, hp⟩, fun k hk => by omega⟩
    · simp [positionIdx, hp] at h
      obtain ⟨j, hj, rfl⟩ := h
      obtain ⟨⟨x, hx, hpx⟩, hmin⟩ := ih hj
      refine ⟨⟨x, by simpa using hx, hpx⟩, ?_⟩
      intro k hk y hy
      cases k with
      | zero =>
        simp at hy
        subst hy
        simpa using hp
      | succ k' =>
        simp at hy
        exact hmin k' (by omega) y hy

theorem projectRows_ok {colIndices : List Nat} {rows : List AgentValue}
    (h : ∀ r ∈ rows, (asArray r).isSome = true) :
    ∃ out, projectRows colIndices rows = .ok out ∧ out.length = rows.length ∧
      ∀ (j : Nat) (cells : List AgentValue),
        rows[j]? = some (AgentValue.array cells) →
        out[j]? = some (AgentValue.array
          (colIndices.map (fun i => cells[i]?.getD .unit))) := by
  induction rows with
  | nil => exact ⟨[], rfl, rfl, fun j cells hj => by simp at hj⟩
  | cons r rs ih =>
    have hr : (asArray r).isSome = true := h r (by simp)
    obtain ⟨cells0, rfl⟩ : ∃ cs, r = .array cs := by
      cases r <;> simp [asArray] at hr ⊢
    obtain ⟨out2, ho, hlen, hcells⟩ := ih (fun r hr => h r (by simp [hr]))
    refine ⟨.array (colIndices.map (fun i => cells0[i]?.getD .unit)) :: out2,
      ?_, by simpa using hlen, ?_⟩
    · simp [projectRows, projectRow, asArray, ho]
    · intro j cells hj
      cases j with
      | zero =>
        simp at hj
        subst hj
        simp
      | succ jp =>
        simp at hj ⊢
        exact hcells jp cells hj
theorem resolveCols_err {headers : List AgentValue} {names : List String}
    (h : ∃ c ∈ names, positionIdx (headerMatches c) headers = none) :
    ∃ c, c ∈ names ∧ positionIdx (headerMatches c) headers = none ∧
      resolveCols headers names =
        .error (.invalidValue ("Column " ++ c ++ " not found")) := by
  induction names with
  | nil => simp at h
  | cons col more ih =>
    cases hpos : positionIdx (headerMatches col) headers with
    | none => exact ⟨col, by simp, hpos, by simp [resolveCols, hpos]⟩
    | some i =>
      obtain ⟨c, hc, hcn⟩ := h
      have hc' : c ∈ more := by
        rcases List.mem_cons.mp hc with rfl | hm
        · rw [hpos] at hcn; cases hcn
        · exact hm
      obtain ⟨c', hc'm, hc'n, herr⟩ := ih ⟨c, hc', hcn⟩
      refine ⟨c', by simp [hc'm], hc'n, ?_⟩
      simp [resolveCols, hpos, herr]

/-- C6: `Select` resolves each comma-separated, trimmed name against the
headers by exact string equality with the first matching position winning
(second conjunct); an unresolved name produces an Invalid-Value error
naming a missing column (third conjunct); otherwise every output row
holds exactly the selected columns in the order requested (first
conjunct), and a single-row result is returned unwrapped — as on the
spec's own example, where `b,a` on headers `a`,`b` and row `1`,`2` yields
the bare row `2`,`1` (fourth conjunct). -/
theorem select_projects_in_request_order :
    (∀ cols v headers rows colIndices,
      getArray v "headers" = some headers →
      getArray v "rows" = some rows →
      resolveCols headers (parseCols cols) = .ok colIndices →
      (∀ r ∈ rows, (asArray r).isSome = true) →
      ∃ outRows, projectRows colIndices rows = .ok outRows ∧
        outRows.length = rows.length ∧
        (∀ (j : Nat) (cells : List AgentValue),
          rows[j]? = some (AgentValue.array cells) →
          outRows[j]? = some (AgentValue.array
            (colIndices.map (fun i => cells[i]?.getD .unit)))) ∧
        selectProcess cols v =
          .ok (match outRows with | [r] => r | _ => .array outRows)) ∧
    (∀ headers col i, positionIdx (headerMatches col) headers = some i →
      (∃ x, headers[i]? = some x ∧ headerMatches col x = true) ∧
      (∀ k, k < i → ∀ x, headers[k]? = some x → headerMatches col x = false)) ∧
    (∀ cols v headers col,
      getArray v "headers" = some headers →
      col ∈ parseCols cols →
      positionIdx (headerMatches col) headers = none →
      ∃ c, c ∈ parseCols cols ∧
        selectProcess cols v =
          .error (.invalidValue ("Column " ++ c ++ " not found"))) ∧
    selectProcess "b,a"
        (.object [("headers", .array [.string "a", .string "b"]),
                  ("rows", .array [.array [.integer 1, .integer 2]])]) =
      .ok (.array [.integer 2, .integer 1]) := by
  refine ⟨?_, fun headers col i h => positionIdx_spec h, ?_, by rfl⟩
  · intro cols v headers rows colIndices hh hr hres harr
    obtain ⟨out, ho, hlen, hcells⟩ := projectRows_ok harr
    refine ⟨out, ho, hlen, hcells, ?_⟩
    simp only [selectProcess, hh, hres, hr, ho]
    cases out with
    | nil => rfl
    | cons a as => cases as <;> rfl
  · intro cols v headers col hh hmem hnone
    obtain ⟨c, hcm, _, herr⟩ := resolveCols_err ⟨col, hmem, hnone⟩
    exact ⟨c, hcm, by simp [selectProcess, hh, herr]⟩

/-- Witness for `select_projects_in_request_order`: requesting the
column `zz` against the sole header `a` is an Invalid-Value error naming
`zz`. -/
theorem select_projects_witness :
    ∃ c, c ∈ parseCols "zz" ∧
      selectProcess "zz"
          (.object [("headers", .array [.string "a"]), ("rows", .array [])]) =
        .error (.invalidValue ("Column " ++ c ++ " not found")) :=
  select_projects_in_request_order.2.2.1 "zz"
    (.object [("headers", .array [.string "a"]), ("rows", .array [])])
    [.string "a"] "zz" rfl (by decide) rfl

/-- C10: projection never fails on a row that is an array shorter than a
resolved column index — each selected cell is read totally, an
out-of-range index yielding `Unit` (first conjunct), so `Select` still
succeeds on such tables (second conjunct). -/
theorem select_pads_missing_cells :
    (∀ colIndices cells, projectRow colIndices (.array cells) =
      .ok (.array (colIndices.map
        (fun i => if h : i < cells.length then cells.get ⟨i, h⟩ else .unit)))) ∧
    (∀ cols v headers rows colIndices,
      getArray v "headers" = some headers →
      getArray v "rows" = some rows →
      resolveCols headers (parseCols cols) = .ok colIndices →
      (∀ r ∈ rows, (asArray r).isSome = true) →
      ∃ out, selectProcess cols v = .ok out) := by
  constructor
  · intro colIndices cells
    simp only [projectRow, asArray]
    congr 2
    apply List.map_congr_left
    intro i _
    by_cases h : i < cells.length
    · simp [List.getElem?_eq_getElem h, h]
    · simp [List.getElem?_eq_none (Nat.le_of_not_lt h), h]
  · intro cols v headers rows colIndices hh hr hres harr
    obtain ⟨out, ho, _, _⟩ := @projectRows_ok colIndices rows harr
    cases out with
    | nil => exact ⟨.array [], by simp only [selectProcess, hh, hres, hr, ho]⟩
    | cons a as =>
      cases as with
      | nil => exact ⟨a, by simp only [selectProcess, hh, hres, hr, ho]⟩
      | cons b bs =>
        exact ⟨.array (a :: b :: bs), by simp only [selectProcess, hh, hres, hr, ho]⟩

/-- Witness for `select_pads_missing_cells`: projecting column index 1
out of a one-cell row yields `Unit`, and `Select` of column `b` succeeds
on a table whose row has fewer cells than the headers. -/
theorem select_pads_missing_cells_witness :
    projectRow [1] (.array [.integer 7]) = .ok (.array [.unit]) ∧
    ∃ out, selectProcess "b"
        (.object [("headers", .array [.string "a", .string "b"]),
                  ("rows", .array [.array [.integer 1]])]) = .ok out :=
  ⟨select_pads_missing_cells.1 [1] [.integer 7],
   select_pads_missing_cells.2 "b" _ [.string "a", .string "b"]
     [.array [.integer 1]] [1] rfl rfl rfl (by decide)⟩

/-- The escape fold, generalized over its accumulator: the output
characters are the accumulator followed by each input character's
entity expansion. -/
theorem escape_aux (l : List Char) (acc : String) :
    (l.foldl
      (fun escaped ch =>
        if ch = '&' then escaped ++ "&amp;"
        else if ch = '<' then escaped ++ "&lt;"
        else if ch = '>' then escaped ++ "&gt;"
        else if ch = '"' then escaped ++ "&quot;"
        else if ch = Char.ofNat 39 then escaped ++ "&#39;"
        else escaped.push ch)
      acc).data = acc.data ++ l.flatMap (fun c => (escChar c).data) := by
  induction l generalizing acc with
  | nil => simp
  | cons c cs ih =>
    rw [List.foldl_cons, ih]
    by_cases h1 : c = '&'
    · simp [escChar, h1, String.data_append]
    · by_cases h2 : c = '<'
      · simp [escChar, h1, h2, String.data_append]
      · by_cases h3 : c = '>'
        · simp [escChar, h1, h2, h3, String.data_append]
        · by_cases h4 : c = '"'
          · simp [escChar, h1, h2, h3, h4, String.data_append]
          · by_cases h5 : c = Char.ofNat 39
            · simp [escChar, h1, h2, h3, h4, h5, String.data_append]
            · simp [escChar, h1, h2, h3, h4, h5, String.push, String.singleton]

/-- No entity expansion contains a raw markup-significant character
(the ampersand of an entity aside). -/
theorem escChar_no_raw (x c : Char) (hc : c ∈ (escChar x).data) :
    c ≠ '<' ∧ c ≠ '>' ∧ c ≠ '"' ∧ c ≠ Char.ofNat 39 := by
  unfold escChar at hc
  split_ifs at hc with h1 h2 h3 h4 h5
  · have : "&amp;".data = ['&', 'a', 'm', 'p', ';'] := rfl
    rw [this] at hc
    fin_cases hc <;> refine ⟨by decide, by decide, by decide, by decide⟩
  · have : "&lt;".data = ['&', 'l', 't', ';'] := rfl
    rw [this] at hc
    fin_cases hc <;> refine ⟨by decide, by decide, by decide, by decide⟩
  · have : "&gt;".data = ['&', 'g', 't', ';'] := rfl
    rw [this] at hc
    fin_cases hc <;> refine ⟨by decide, by decide, by decide, by decide⟩
  · have : "&quot;".data = ['&', 'q', 'u', 'o', 't', ';'] := rfl
    rw [this] at hc
    fin_cases hc <;> refine ⟨by decide, by decide, by decide, by decide⟩
  · have : "&#39;".data = ['&', '#', '3', '9', ';'] := rfl
    rw [this] at hc
    fin_cases hc <;> refine ⟨by decide, by decide, by decide, by decide⟩
  · have : (String.singleton x).data = [x] := rfl
    rw [this] at hc
    simp at hc
    subst hc
    exact ⟨h2, h3, h4, h5⟩

set_option maxRecDepth 8192 in
/-- C9: the renderer HTML-entity-escapes all header and cell text.
`escape_html` expands every occurrence of the five special characters to
its entity (first conjunct), so its output never contains a raw `<`,
`>`, quote or apostrophe (second conjunct); rendering the header `a`
with the single cell `<x>` produces markup containing the escaped
sequence and not the raw one (last conjuncts). -/
theorem renderer_escapes_html :
    (∀ s : String,
      (escape_html s).data = s.data.flatMap (fun c => (escChar c).data)) ∧
    (∀ s : String,
      (escape_html s).data.contains '<' = false ∧
      (escape_html s).data.contains '>' = false ∧
      (escape_html s).data.contains '"' = false ∧
      (escape_html s).data.contains (Char.ofNat 39) = false) ∧
    strContains (generate_html_table (fun _ => "") (fun _ => none)
      (some [.string "a"]) (some [.array [.string "<x>"]])) "&lt;x&gt;" = true ∧
    strContains (generate_html_table (fun _ => "") (fun _ => none)
      (some [.string "a"]) (some [.array [.string "<x>"]])) "<x>" = false := by
  have hdata : ∀ s : String,
      (escape_html s).data = s.data.flatMap (fun c => (escChar c).data) :=
    fun s => by simpa using escape_aux s.data ""
  refine ⟨hdata, fun s => ?_, by rfl, by rfl⟩
  have hmem : ∀ c, c ∈ (escape_html s).data →
      c ≠ '<' ∧ c ≠ '>' ∧ c ≠ '"' ∧ c ≠ Char.ofNat 39 := by
    intro c hc
    rw [hdata] at hc
    obtain ⟨x, _, hcx⟩ := List.mem_flatMap.mp hc
    exact escChar_no_raw x c hcx
  refine ⟨?_, ?_, ?_, ?_⟩
  · simpa using fun h => (hmem _ h).1 rfl
  · simpa using fun h => (hmem _ h).2.1 rfl
  · simpa using fun h => (hmem _ h).2.2.1 rfl
  · simpa using fun h => (hmem _ h).2.2.2 rfl

theorem take2_iff (a : Char) (c : Char) (cs : List Char) :
    ((c :: cs).take 2 = [a, a]) ↔ (c = a ∧ cs.head? = some a) := by
  cases cs <;> simp [List.take]

theorem take2_iff2 (a b : Char) (c : Char) (cs : List Char) :
    ((c :: cs).take 2 = [a, b]) ↔ (c = a ∧ cs.head? = some b) := by
  cases cs <;> simp [List.take]

theorem dropWhile_head_not (p : Char → Bool) (s : List Char) :
    ∀ c cs, s.dropWhile p = c :: cs → p c = false := by
  induction s with
  | nil => intro c cs h; simp at h
  | cons a as ih =>
    intro c cs h
    by_cases ha : p a
    · rw [List.dropWhile_cons_of_pos ha] at h
      exact ih c cs h
    · rw [List.dropWhile_cons_of_neg ha] at h
      cases h
      simpa using ha

/-- The spec-side skipper ignores leading whitespace. -/
theorem skipToToken_dropWhile (overlap : Bool) (s : List Char) :
    skipToToken overlap s = skipToToken overlap (s.dropWhile Char.isWhitespace) := by
  induction s with
  | nil => simp
  | cons c cs ih =>
    by_cases hc : Char.isWhitespace c
    · rw [List.dropWhile_cons_of_pos hc, ← ih]
      rw [skipToToken]
      simp [hc]
    · rw [List.dropWhile_cons_of_neg hc]


theorem dropWhile_idem (p : Char → Bool) (l : List Char) :
    (l.dropWhile p).dropWhile p = l.dropWhile p := by
  cases h : l.dropWhile p with
  | nil => rfl
  | cons c cs =>
    have := dropWhile_head_not p l c cs h
    rw [List.dropWhile_cons_of_neg (by simp [this])]

theorem first_keyword_dropWhile (s : List Char) :
    first_keyword s = first_keyword (s.dropWhile Char.isWhitespace) := by
  rw [first_keyword]
  conv_rhs => rw [first_keyword]
  rw [dropWhile_idem]

theorem first_keyword_nil : first_keyword [] = none := by
  rw [first_keyword]
  simp

theorem first_keyword_line (r : List Char) :
    first_keyword ('-' :: '-' :: r) =
      match splitOnceNl r with
      | none => none
      | some rest => first_keyword rest := by
  have hsp : splitOnceNl ('-' :: '-' :: r) = splitOnceNl r := by
    simp [splitOnceNl]
  rw [first_keyword]
  rw [List.dropWhile_cons_of_neg (by simp)]
  rw [if_pos (by simp)]
  split <;> rename_i h
  · rw [hsp] at h
    simp [h]
  · rw [hsp] at h
    simp [h]

theorem first_keyword_block (r : List Char) :
    first_keyword ('/' :: '*' :: r) =
      match afterBlockClose ('*' :: r) with
      | none => none
      | some rest => first_keyword rest := by
  have hab : afterBlockClose ('/' :: '*' :: r) = afterBlockClose ('*' :: r) := by
    rw [afterBlockClose]
    simp
  rw [first_keyword]
  rw [List.dropWhile_cons_of_neg (by simp)]
  rw [if_neg (by simp), if_pos (by simp)]
  split <;> rename_i h
  · rw [hab] at h
    simp [h]
  · rw [hab] at h
    simp [h]

theorem first_keyword_token (c : Char) (cs : List Char)
    (hnw : c.isWhitespace = false)
    (h1 : ¬(c = '-' ∧ cs.head? = some '-'))
    (h2 : ¬(c = '/' ∧ cs.head? = some '*')) :
    first_keyword (c :: cs) =
      some (((c :: cs).takeWhile (fun x => !x.isWhitespace)).map Char.toLower) := by
  rw [first_keyword]
  rw [List.dropWhile_cons_of_neg (by simp [hnw])]
  rw [if_neg (by rw [take2_iff2]; exact h1), if_neg (by rw [take2_iff2]; exact h2)]
  rw [List.takeWhile_cons_of_pos (by simp [hnw])]

theorem skipToToken_nil (overlap : Bool) : skipToToken overlap [] = none := by
  rw [skipToToken]

theorem skipToToken_line (overlap : Bool) (r : List Char) :
    skipToToken overlap ('-' :: '-' :: r) =
      match splitOnceNl r with
      | none => none
      | some rest => skipToToken overlap rest := by
  rw [skipToToken]
  rw [if_neg (by simp), if_pos (by simp)]
  split <;> rename_i h
  · simp only [List.tail_cons] at h
    simp [h]
  · simp only [List.tail_cons] at h
    simp [h]

theorem skipToToken_block (overlap : Bool) (r : List Char) :
    skipToToken overlap ('/' :: '*' :: r) =
      match afterBlockClose (if overlap then '*' :: r else r) with
      | none => none
      | some rest => skipToToken overlap rest := by
  rw [skipToToken]
  rw [if_neg (by simp), if_neg (by simp), if_pos (by simp)]
  split <;> rename_i h
  · simp only [List.tail_cons] at h
    simp [h]
  · simp only [List.tail_cons] at h
    simp [h]

theorem skipToToken_token (overlap : Bool) (c : Char) (cs : List Char)
    (hnw : c.isWhitespace = false)
    (h1 : ¬(c = '-' ∧ cs.head? = some '-'))
    (h2 : ¬(c = '/' ∧ cs.head? = some '*')) :
    skipToToken overlap (c :: cs) = some (c :: cs) := by
  rw [skipToToken]
  rw [if_neg (by simp [hnw]), if_neg h1, if_neg h2]

/-- `first_keyword` computes exactly the lowercased first token of the
text the spec-side skipper (overlap reading) leaves. -/
theorem first_keyword_eq_claim : ∀ (n : Nat) (s : List Char), s.length ≤ n →
    first_keyword s =
      match skipToToken true s with
      | none => none
      | some t =>
        match t.takeWhile (fun x => !x.isWhitespace) with
        | [] => none
        | w => some (w.map Char.toLower) := by
  intro n
  induction n with
  | zero =>
    intro s hs
    have hnil : s = [] := List.length_eq_zero.mp (Nat.le_zero.mp hs)
    subst hnil
    rw [first_keyword_nil, skipToToken_nil]
  | succ n ih =>
    intro s hs
    rw [first_keyword_dropWhile, skipToToken_dropWhile]
    cases ht : s.dropWhile Char.isWhitespace with
    | nil => rw [first_keyword_nil, skipToToken_nil]
    | cons c cs =>
      have hnw : Char.isWhitespace c = false := dropWhile_head_not _ s c cs ht
      have hlen : (c :: cs).length ≤ n + 1 := by
        have h1 := dropWhile_length_le Char.isWhitespace s
        rw [ht] at h1
        omega
      by_cases hd : c = '-' ∧ cs.head? = some '-'
      · obtain ⟨rfl, hh⟩ := hd
        obtain ⟨r, rfl⟩ : ∃ r, cs = '-' :: r := by
          cases cs with
          | nil => simp at hh
          | cons x xs =>
            simp at hh
            subst hh
            exact ⟨xs, rfl⟩
        rw [first_keyword_line, skipToToken_line]
        cases hrest : splitOnceNl r with
        | none => rfl
        | some rest =>
          have hrl : rest.length ≤ n := by
            have h2 := splitOnceNl_length hrest
            simp at hlen
            omega
          exact ih rest hrl
      · by_cases hsl : c = '/' ∧ cs.head? = some '*'
        · obtain ⟨rfl, hh⟩ := hsl
          obtain ⟨r, rfl⟩ : ∃ r, cs = '*' :: r := by
            cases cs with
            | nil => simp at hh
            | cons x xs =>
              simp at hh
              subst hh
              exact ⟨xs, rfl⟩
          rw [first_keyword_block, skipToToken_block]
          simp only [if_true]
          cases hrest : afterBlockClose ('*' :: r) with
          | none => rfl
          | some rest =>
            have hrl : rest.length ≤ n := by
              have h2 := afterBlockClose_length hrest
              simp at h2 hlen
              omega
            exact ih rest hrl
        · rw [first_keyword_token c cs hnw hd hsl,
            skipToToken_token true c cs hnw hd hsl]
          simp [List.takeWhile_cons, hnw]

/-- C4 amended: the classifier equals the claim's skip-comments-then-test
algorithm once the block-comment terminator search is read as starting at
the opener's own `*` (so `/` `*` `/` is already a complete comment); under
that amendment the equality holds for every script, and the spec's three
test cases follow. -/
theorem script_returns_rows_eq_claim_overlap :
    (∀ s : List Char, script_returns_rows s = claimIsRowProducing true s) ∧
    script_returns_rows "  -- comment\nSELECT 1".data = true ∧
    script_returns_rows "/* c */ insert into t values (1)".data = false ∧
    script_returns_rows "".data = false := by
  refine ⟨?_, ?_, ?_, ?_⟩
  · intro s
    unfold script_returns_rows claimIsRowProducing
    rw [first_keyword_eq_claim s.length s (Nat.le_refl _)]
    cases skipToToken true s with
    | none => rfl
    | some t =>
      dsimp only
      cases t.takeWhile (fun x => !x.isWhitespace) with
      | nil => decide
      | cons w ws2 => rfl
  · simp [script_returns_rows, first_keyword, splitOnceNl, afterBlockClose,
      rowKeywords]
  · simp [script_returns_rows, first_keyword, splitOnceNl, afterBlockClose,
      rowKeywords]
  · simp [script_returns_rows, first_keyword]

/-- C4 counterexample: on the script `/` `*` `/` ` select`, whose block
comment is unterminated under the claim's natural reading (no terminator
after the two-character opener), the code returns `true` — the opener's
`*` pairs with the following `/` and closes the comment immediately —
while the claim's algorithm returns `false`. -/
theorem classifier_counterexample :
    script_returns_rows "/*/ select".data = true ∧
    claimIsRowProducing false "/*/ select".data = false := by
  constructor
  · simp [script_returns_rows, first_keyword, splitOnceNl, afterBlockClose,
      rowKeywords]
  · simp [claimIsRowProducing, skipToToken, splitOnceNl, afterBlockClose,
      rowKeywords]
